import Mathlib

/-!
# Verification of the `chunk` streaming chunk splitter (`src/chunk.cpp`)

This file embeds the computational core of `chunk.cpp` — the SHA-512 based
content naming (`compute_sha512`), the buffer pool (`BufferPool`), and the
streaming splitter (`Chunker`) — as executable Lean definitions, and proves
the specified properties about them.

Modelling conventions:

* A byte is a `Nat` (values `< 256` in every use; the algorithms do not
  depend on the bound except where `% 256` appears explicitly).
* A `ChunkBuffer` is represented by the list of its first `used` bytes
  (`used` = list length).  The C++ buffer owns `capacity` bytes of raw
  storage of which only the first `used` are ever read (`memcpy` writes at
  offset `used`, the flusher reads exactly `used` bytes), so the used
  prefix is the whole observable state.  `clear()` (`used = 0`) is the
  empty list.
* `std::vector<...> freeBuffers_` is modelled as a list whose head is the
  *back* of the vector (`acquireBuffer` pops the back, `releaseBuffer`
  pushes to the back).
* Exceptions (`throw std::runtime_error`) are modelled with
  `Except String`, carrying the exact message thrown by the source.
* The ambient world of a flush — `std::time(nullptr)` and whether the
  output file can be opened — is an explicit environment
  `env : Nat → Nat × Bool` giving, for the n-th finalized chunk of a run,
  its timestamp and whether the `ofstream` open succeeds.
* The chunk size threshold `CHUNK_LIMIT` is a fixed constant in the
  source; the `Chunker` model takes it as the parameter `limit` so that
  the spec's scenarios (threshold 10) and the production value can both be
  instantiated; production theorems use `CHUNK_LIMIT` itself.
* `EVP_sha512` (OpenSSL, outside this repository) is modelled by the
  FIPS 180-4 SHA-512 algorithm it implements; the hex rendering mirrors
  the nibble loop of `compute_sha512` in the source.
-/

namespace Chunk

/-! ## Constants (`chunk.cpp` lines 31–36) -/

def CHUNK_BASE_SIZE : Nat := 5 * 1024 * 1024
def CHUNK_VARIANCE : Nat := 5 * 1024
def CHUNK_LIMIT : Nat := CHUNK_BASE_SIZE + CHUNK_VARIANCE
def NUM_BUFFERS : Nat := 100

/-! ## SHA-512 (model of `EVP_sha512`, used by `compute_sha512`) -/

/-- Truncation to a 64-bit word. -/
def w64 (x : Nat) : Nat := x % 2 ^ 64

/-- Rotate right by `n` within 64 bits. -/
def rotr64 (n x : Nat) : Nat :=
  w64 (Nat.lor (Nat.shiftRight x n) (Nat.shiftLeft x (64 - n)))

def bigSigma0 (x : Nat) : Nat :=
  Nat.xor (Nat.xor (rotr64 28 x) (rotr64 34 x)) (rotr64 39 x)

def bigSigma1 (x : Nat) : Nat :=
  Nat.xor (Nat.xor (rotr64 14 x) (rotr64 18 x)) (rotr64 41 x)

def smallSigma0 (x : Nat) : Nat :=
  Nat.xor (Nat.xor (rotr64 1 x) (rotr64 8 x)) (Nat.shiftRight x 7)

def smallSigma1 (x : Nat) : Nat :=
  Nat.xor (Nat.xor (rotr64 19 x) (rotr64 61 x)) (Nat.shiftRight x 6)

/-- Bitwise choice: for `x < 2^64`, `(2^64 - 1) ^^^ x` is the 64-bit complement. -/
def ch64 (x y z : Nat) : Nat :=
  Nat.xor (Nat.land x y) (Nat.land (Nat.xor (2 ^ 64 - 1) x) z)

def maj64 (x y z : Nat) : Nat :=
  Nat.xor (Nat.xor (Nat.land x y) (Nat.land x z)) (Nat.land y z)

/-- The 80 SHA-512 round constants. -/
def sha512K : List Nat :=
  [4794697086780616226, 8158064640168781261, 13096744586834688815, 16840607885511220156,
   4131703408338449720, 6480981068601479193, 10538285296894168987, 12329834152419229976,
   15566598209576043074, 1334009975649890238, 2608012711638119052, 6128411473006802146,
   8268148722764581231, 9286055187155687089, 11230858885718282805, 13951009754708518548,
   16472876342353939154, 17275323862435702243, 1135362057144423861, 2597628984639134821,
   3308224258029322869, 5365058923640841347, 6679025012923562964, 8573033837759648693,
   10970295158949994411, 12119686244451234320, 12683024718118986047, 13788192230050041572,
   14330467153632333762, 15395433587784984357, 489312712824947311, 1452737877330783856,
   2861767655752347644, 3322285676063803686, 5560940570517711597, 5996557281743188959,
   7280758554555802590, 8532644243296465576, 9350256976987008742, 10552545826968843579,
   11727347734174303076, 12113106623233404929, 14000437183269869457, 14369950271660146224,
   15101387698204529176, 15463397548674623760, 17586052441742319658, 1182934255886127544,
   1847814050463011016, 2177327727835720531, 2830643537854262169, 3796741975233480872,
   4115178125766777443, 5681478168544905931, 6601373596472566643, 7507060721942968483,
   8399075790359081724, 8693463985226723168, 9568029438360202098, 10144078919501101548,
   10430055236837252648, 11840083180663258601, 13761210420658862357, 14299343276471374635,
   14566680578165727644, 15097957966210449927, 16922976911328602910, 17689382322260857208,
   500013540394364858, 748580250866718886, 1242879168328830382, 1977374033974150939,
   2944078676154940804, 3659926193048069267, 4368137639120453308, 4836135668995329356,
   5532061633213252278, 6448918945643986474, 6902733635092675308, 7801388544844847127]

/-- The eight 64-bit working registers of the compression function. -/
structure Sha512State where
  a : Nat
  b : Nat
  c : Nat
  d : Nat
  e : Nat
  f : Nat
  g : Nat
  h : Nat
deriving Repr, DecidableEq

/-- Initial hash value H⁽⁰⁾. -/
def sha512H0 : Sha512State :=
  { a := 7640891576956012808, b := 13503953896175478587, c := 4354685564936845355,
    d := 11912009170470909681, e := 5840696475078001361, f := 11170449401992604703,
    g := 2270897969802886507, h := 6620516959819538809 }

/-- One round of the SHA-512 compression function. -/
def sha512Round (st : Sha512State) (k w : Nat) : Sha512State :=
  let t1 := w64 (st.h + bigSigma1 st.e + ch64 st.e st.f st.g + k + w)
  let t2 := w64 (bigSigma0 st.a + maj64 st.a st.b st.c)
  { a := w64 (t1 + t2), b := st.a, c := st.b, d := st.c,
    e := w64 (st.d + t1), f := st.e, g := st.f, h := st.g }

/-- Big-endian assembly of a 64-bit word from a byte list. -/
def bytesToWord (l : List Nat) : Nat := l.foldl (fun acc b => acc * 256 + b) 0

/-- The sixteen big-endian message words of one 128-byte block. -/
def blockWords (block : List Nat) : List Nat :=
  (List.range 16).map fun i => bytesToWord ((block.drop (8 * i)).take 8)

/-- Extend sixteen message words to the eighty-entry message schedule. -/
def sha512Schedule (w16 : List Nat) : List Nat :=
  (List.range 64).foldl
    (fun ws _ =>
      let n := ws.length
      ws ++ [w64 (smallSigma1 (ws.getD (n - 2) 0) + ws.getD (n - 7) 0 +
                  smallSigma0 (ws.getD (n - 15) 0) + ws.getD (n - 16) 0)])
    w16

/-- Compress one 128-byte block into the running hash state. -/
def sha512Compress (st : Sha512State) (block : List Nat) : Sha512State :=
  let ws := sha512Schedule (blockWords block)
  let fin := (sha512K.zip ws).foldl (fun t kw => sha512Round t kw.1 kw.2) st
  { a := w64 (st.a + fin.a), b := w64 (st.b + fin.b), c := w64 (st.c + fin.c),
    d := w64 (st.d + fin.d), e := w64 (st.e + fin.e), f := w64 (st.f + fin.f),
    g := w64 (st.g + fin.g), h := w64 (st.h + fin.h) }

/-- SHA-512 padding: `0x80`, zeros to 112 mod 128, then the 16-byte
big-endian bit length. -/
def sha512Pad (msg : List Nat) : List Nat :=
  let zeros := (239 - msg.length % 128) % 128
  let bitLen := 8 * msg.length
  msg ++ [128] ++ List.replicate zeros 0 ++
    ((List.range 16).map fun i => (bitLen >>> (8 * (15 - i))) % 256)

/-- The padded message cut into 128-byte blocks. -/
def sha512Blocks (padded : List Nat) : List (List Nat) :=
  (List.range (padded.length / 128)).map fun i => (padded.drop (128 * i)).take 128

/-- The eight big-endian bytes of a 64-bit word. -/
def wordBytes (w : Nat) : List Nat :=
  (List.range 8).map fun i => (w >>> (8 * (7 - i))) % 256

/-- The 64-byte SHA-512 digest of a byte sequence. -/
def sha512Digest (msg : List Nat) : List Nat :=
  let fin := (sha512Blocks (sha512Pad msg)).foldl sha512Compress sha512H0
  wordBytes fin.a ++ wordBytes fin.b ++ wordBytes fin.c ++ wordBytes fin.d ++
    wordBytes fin.e ++ wordBytes fin.f ++ wordBytes fin.g ++ wordBytes fin.h

/-! ## `compute_sha512` (`chunk.cpp` lines 44–73): digest plus hex rendering -/

/-- One hex digit as printed by `std::hex << std::nouppercase` for a value
in `0..15`. -/
def hexDigit (n : Nat) : Char :=
  if n < 10 then Char.ofNat (48 + n) else Char.ofNat (87 + n)

/-- The two hex digits of one digest byte, high nibble first
(`(hash[i] & 0xF0) >> 4` then `hash[i] & 0x0F`). -/
def byteHex (b : Nat) : List Char := [hexDigit ((b &&& 0xF0) >>> 4), hexDigit (b &&& 0x0F)]

/-- Model of `compute_sha512`: the SHA-512 digest of the bytes, rendered
as lowercase hex. -/
def compute_sha512 (data : List Nat) : String :=
  ⟨(sha512Digest data).map byteHex |>.flatten⟩

/-! ## Data model: buffers, pool, chunker state

A `ChunkBuffer` (`chunk.cpp` lines 78–86) is represented by its first
`used` bytes; `used` is the list length and `clear()` yields `[]`. -/

/-- Model of `ChunkBuffer::clear` — reset `used` to 0. -/
def bufClear (_b : List Nat) : List Nat := []

/-- One finalized chunk, `flushCurrentBuffer`'s observable output: the
chunk bytes, their hash, the timestamp drawn at flush time, the output
file name built from them, and whether the `ofstream` open succeeded
(`written = false` models the "Error writing chunk file" path, where the
bytes are lost). -/
structure ChunkRecord where
  content : List Nat
  hash : String
  timestamp : Nat
  fname : String
  written : Bool
deriving Repr, DecidableEq

/-- The mutable state shared by the buffer pool, the (at most one) live
`Chunker`, and the output directory.

* `free` — `BufferPool::freeBuffers_`, head = back of the vector;
* `current` — `Chunker::currentBuffer_` (`none` = null `unique_ptr`,
  i.e. moved-from or destroyed);
* `chunks` — all finalized chunk records of the run, in flush order. -/
structure ChunkState where
  free : List (List Nat)
  current : Option (List Nat)
  chunks : List ChunkRecord
deriving Repr, DecidableEq

/-- Free buffers plus the buffer checked out to the chunker (the live
buffers of the pool's original allocation). -/
def totalBuffers (s : ChunkState) : Nat :=
  s.free.length + (if s.current.isSome then 1 else 0)

/-- The state of a fresh run: `BufferPool(bufferCount, ...)` fills the
free vector with `bufferCount` buffers, no chunker exists, nothing has
been written. -/
def initState (bufferCount : Nat) : ChunkState :=
  { free := List.replicate bufferCount [], current := none, chunks := [] }

/-! ## `BufferPool` (`chunk.cpp` lines 91–117) -/

/-- Model of `BufferPool::acquireBuffer`: throws if the free vector is
empty, otherwise pops its back, clears the buffer and hands it out. -/
def acquireBuffer (freeBuffers : List (List Nat)) :
    Except String (List Nat × List (List Nat)) :=
  match freeBuffers with
  | [] => .error "No free chunk buffers available!"
  | buf :: rest => .ok (bufClear buf, rest)

/-- Model of `BufferPool::releaseBuffer`: clears the buffer and pushes it
onto the back of the free vector. -/
def releaseBuffer (freeBuffers : List (List Nat)) (buf : List Nat) : List (List Nat) :=
  bufClear buf :: freeBuffers

/-! ## `Chunker` (`chunk.cpp` lines 122–194)

`env n` supplies, for the n-th finalized chunk of the run, the value of
`std::time(nullptr)` at that flush and whether the output `ofstream`
opens successfully. -/

/-- Model of `Chunker::flushCurrentBuffer`: a null or empty current buffer is left
untouched; otherwise hash the `used` bytes, build
`<dir>/<hash>_<time>.txt`, attempt the write (a failed open is only
reported), and release the buffer — `currentBuffer_` is moved-from
(`none`) afterwards. -/
def flushCurrentBuffer (dir : String) (env : Nat → Nat × Bool) (s : ChunkState) :
    ChunkState :=
  match s.current with
  | none => s
  | some b =>
    if b.length = 0 then s
    else
      let hashVal := compute_sha512 b
      let now := (env s.chunks.length).1
      let fname := dir ++ "/" ++ hashVal ++ "_" ++ toString now ++ ".txt"
      let r : ChunkRecord :=
        { content := b, hash := hashVal, timestamp := now, fname := fname,
          written := (env s.chunks.length).2 }
      { free := releaseBuffer s.free b, current := none, chunks := s.chunks ++ [r] }

/-- Model of the constructor `Chunker::Chunker`: acquire the initial
current buffer from the pool. -/
def constructChunker (s : ChunkState) : Except String ChunkState :=
  match acquireBuffer s.free with
  | .error e => .error e
  | .ok (buf, free') => .ok { s with free := free', current := some buf }

/-- Model of the destructor of `Chunker`: flush leftover data, then the `unique_ptr`
member deallocates whatever buffer it still holds (the destructor never
returns an unflushed buffer to the pool). -/
def destroyChunker (dir : String) (env : Nat → Nat × Bool) (s : ChunkState) :
    ChunkState :=
  let s₁ := flushCurrentBuffer dir env s
  { s₁ with current := none }

/-- The body of `Chunker::pushData`'s `while (offset < len)` loop.  Each
fuel unit is one loop iteration; `pushData` supplies enough fuel for any
input (shown in `pushLoop_spec`), so the out-of-fuel error is
unreachable there. -/
def pushLoop (dir : String) (limit : Nat) (env : Nat → Nat × Bool) :
    Nat → ChunkState → List Nat → Except String ChunkState
  | 0, _, _ => .error "pushLoop: out of fuel"
  | _ + 1, s, [] => .ok s
  | fuel + 1, s, d :: rest =>
    match s.current with
    | none => .error "pushData on a destroyed Chunker"
    | some b =>
      let spaceLeft := limit - b.length
      if spaceLeft = 0 then
        -- current buffer is full: flush, acquire a fresh buffer, continue
        let s₁ := flushCurrentBuffer dir env s
        match acquireBuffer s₁.free with
        | .error e => .error e
        | .ok (buf, free') =>
          pushLoop dir limit env fuel { s₁ with free := free', current := some buf }
            (d :: rest)
      else
        let toWrite := min spaceLeft (d :: rest).length
        let b' := b ++ (d :: rest).take toWrite
        let data' := (d :: rest).drop toWrite
        if limit ≤ b'.length then
          let s₁ := flushCurrentBuffer dir env { s with current := some b' }
          match acquireBuffer s₁.free with
          | .error e => .error e
          | .ok (buf, free') =>
            pushLoop dir limit env fuel { s₁ with free := free', current := some buf }
              data'
        else
          pushLoop dir limit env fuel { s with current := some b' } data'

/-- Model of `Chunker::pushData`.  `2 * len + 1` fuel covers the worst case: the
loop consumes at least one byte on every iteration except a
flush-and-continue one, and two flush-and-continue iterations can never
be adjacent once the threshold is positive. -/
def pushData (dir : String) (limit : Nat) (env : Nat → Nat × Bool)
    (s : ChunkState) (data : List Nat) : Except String ChunkState :=
  pushLoop dir limit env (2 * data.length + 1) s data

/-- One whole stream, as `main` runs it per input file: construct a
`Chunker`, feed it the pushes the extraction step produces, destroy it. -/
def runStream (dir : String) (limit : Nat) (env : Nat → Nat × Bool)
    (s₀ : ChunkState) (pushes : List (List Nat)) : Except String ChunkState :=
  match constructChunker s₀ with
  | .error e => .error e
  | .ok s₁ =>
    match pushes.foldlM (fun s d => pushData dir limit env s d) s₁ with
    | .error e => .error e
    | .ok s₂ => .ok (destroyChunker dir env s₂)

/-! ## Helper definitions for stating and proving the characterization

These are proof-side descriptions of where the splitter places its
boundaries; the theorems below show the embedded code realizes them. -/

/-- All full `limit`-sized chunks of a byte sequence, in order. -/
def chunksOf (limit : Nat) (l : List Nat) : List (List Nat) :=
  if _h : 0 < limit ∧ limit ≤ l.length then
    l.take limit :: chunksOf limit (l.drop limit)
  else []
termination_by l.length
decreasing_by simp only [List.length_drop]; omega

/-- The bytes left over after removing all full `limit`-sized chunks. -/
def chunkRem (limit : Nat) (l : List Nat) : List Nat :=
  if _h : 0 < limit ∧ limit ≤ l.length then chunkRem limit (l.drop limit) else l
termination_by l.length
decreasing_by simp only [List.length_drop]; omega

/-- All chunk contents a whole stream of total content `l` emits: the full
chunks, then the final partial chunk if it is non-empty. -/
def finalChunksOf (limit : Nat) (l : List Nat) : List (List Nat) :=
  chunksOf limit l ++ (if chunkRem limit l = [] then [] else [chunkRem limit l])

/-- The record `flushCurrentBuffer` produces for the `i`-th finalized
chunk of a run when the buffer holds `c`. -/
def mkRecord (dir : String) (env : Nat → Nat × Bool) (i : Nat) (c : List Nat) :
    ChunkRecord :=
  { content := c, hash := compute_sha512 c, timestamp := (env i).1,
    fname := dir ++ "/" ++ compute_sha512 c ++ "_" ++ toString (env i).1 ++ ".txt",
    written := (env i).2 }

/-- The records of a list of chunk contents, numbered from `i`. -/
def recordsOf (dir : String) (env : Nat → Nat × Bool) :
    Nat → List (List Nat) → List ChunkRecord
  | _, [] => []
  | i, c :: cs => mkRecord dir env i c :: recordsOf dir env (i + 1) cs

/-- The sixteen characters the hex rendering may produce. -/
def hexChars : List Char := "0123456789abcdef".data

/-! ## Lemmas about the digest and its hex rendering -/

theorem wordBytes_length (w : Nat) : (wordBytes w).length = 8 := by
  simp [wordBytes]

theorem sha512Digest_length (msg : List Nat) : (sha512Digest msg).length = 64 := by
  simp [sha512Digest, wordBytes_length]

theorem flatten_map_byteHex_length (l : List Nat) :
    ((l.map byteHex).flatten).length = 2 * l.length := by
  induction l with
  | nil => simp
  | cons b bs ih => simp [byteHex, ih]; omega

theorem compute_sha512_length (msg : List Nat) : (compute_sha512 msg).length = 128 := by
  show ((sha512Digest msg).map byteHex).flatten.length = 128
  rw [flatten_map_byteHex_length, sha512Digest_length]

theorem hexDigit_mem (n : Nat) (h : n ≤ 15) : hexDigit n ∈ hexChars := by
  interval_cases n <;> decide

theorem byteHex_mem (b : Nat) : ∀ c ∈ byteHex b, c ∈ hexChars := by
  intro c hc
  have h1 : b &&& 0xF0 ≤ 0xF0 := Nat.and_le_right
  have h2 : (b &&& 0xF0) >>> 4 ≤ 15 := by
    rw [Nat.shiftRight_eq_div_pow]
    omega
  have h3 : b &&& 0x0F ≤ 15 := Nat.and_le_right
  rcases hc with _ | ⟨_, _ | ⟨_, h⟩⟩
  · exact hexDigit_mem _ h2
  · exact hexDigit_mem _ h3
  · cases h

theorem compute_sha512_chars (msg : List Nat) :
    ∀ c ∈ (compute_sha512 msg).data, c ∈ hexChars := by
  intro c hc
  show c ∈ hexChars
  have : c ∈ ((sha512Digest msg).map byteHex).flatten := hc
  rw [List.mem_flatten] at this
  rcases this with ⟨l, hl, hcl⟩
  rw [List.mem_map] at hl
  rcases hl with ⟨b, _, rfl⟩
  exact byteHex_mem b c hcl

/-- Hex strings contain no underscore, so the digest component of a file
name is recoverable; recorded for the naming claims. -/
theorem compute_sha512_no_underscore (msg : List Nat) :
    '_' ∉ (compute_sha512 msg).data := by
  intro h
  have := compute_sha512_chars msg _ h
  simp [hexChars] at this

/-! ## Lemmas about the boundary-placement functions -/

theorem chunksOf_of_lt {limit : Nat} {l : List Nat} (h : l.length < limit) :
    chunksOf limit l = [] := by
  rw [chunksOf, dif_neg (by omega : ¬(0 < limit ∧ limit ≤ l.length))]

theorem chunkRem_of_lt {limit : Nat} {l : List Nat} (h : l.length < limit) :
    chunkRem limit l = l := by
  rw [chunkRem, dif_neg (by omega : ¬(0 < limit ∧ limit ≤ l.length))]

theorem chunksOf_append_full {limit : Nat} {b : List Nat} (m : List Nat)
    (hl : 0 < limit) (hb : b.length = limit) :
    chunksOf limit (b ++ m) = b :: chunksOf limit m := by
  rw [chunksOf]
  rw [dif_pos ⟨hl, by simp; omega⟩]
  congr 1
  · rw [← hb, List.take_left]
  · rw [← hb, List.drop_left]

theorem chunkRem_append_full {limit : Nat} {b : List Nat} (m : List Nat)
    (hl : 0 < limit) (hb : b.length = limit) :
    chunkRem limit (b ++ m) = chunkRem limit m := by
  rw [chunkRem]
  rw [dif_pos ⟨hl, by simp; omega⟩]
  rw [← hb, List.drop_left]

theorem chunkRem_length_lt {limit : Nat} (hl : 0 < limit) (l : List Nat) :
    (chunkRem limit l).length < limit := by
  induction l using chunkRem.induct limit with
  | case1 l h ih => rwa [chunkRem, dif_pos h]
  | case2 l h =>
    rw [chunkRem, dif_neg h]
    omega

theorem chunksOf_mem_length {limit : Nat} {l c : List Nat}
    (hc : c ∈ chunksOf limit l) : c.length = limit := by
  induction l using chunksOf.induct limit with
  | case1 l h ih =>
    rw [chunksOf, dif_pos h] at hc
    rcases hc with _ | ⟨_, hc⟩
    · simp [List.length_take]; omega
    · exact ih hc
  | case2 l h =>
    rw [chunksOf, dif_neg h] at hc
    cases hc

theorem flatten_chunksOf {limit : Nat} (l : List Nat) :
    (chunksOf limit l).flatten ++ chunkRem limit l = l := by
  induction l using chunksOf.induct limit with
  | case1 l h ih =>
    rw [chunksOf, dif_pos h, chunkRem, dif_pos h]
    simp only [List.flatten_cons, List.append_assoc, ih, List.take_append_drop]
  | case2 l h =>
    rw [chunksOf, dif_neg h, chunkRem, dif_neg h]
    simp

theorem chunksOf_append_rem {limit : Nat} (l m : List Nat) :
    chunksOf limit (l ++ m) = chunksOf limit l ++ chunksOf limit (chunkRem limit l ++ m) := by
  induction l using chunksOf.induct limit with
  | case1 l h ih =>
    conv_lhs => rw [show l ++ m = l.take limit ++ (l.drop limit ++ m) by
      rw [← List.append_assoc, List.take_append_drop]]
    rw [chunksOf_append_full _ h.1 (by simp; omega), ih]
    conv_rhs => rw [chunksOf, dif_pos h, chunkRem, dif_pos h]
    simp
  | case2 l h =>
    have hrem : chunkRem limit l = l := by rw [chunkRem, dif_neg h]
    have hnil : chunksOf limit l = [] := by rw [chunksOf, dif_neg h]
    rw [hrem, hnil]
    simp

theorem chunkRem_append_rem {limit : Nat} (l m : List Nat) :
    chunkRem limit (l ++ m) = chunkRem limit (chunkRem limit l ++ m) := by
  induction l using chunkRem.induct limit with
  | case1 l h ih =>
    have hrem : chunkRem limit l = chunkRem limit (l.drop limit) := by
      conv_lhs => rw [chunkRem, dif_pos h]
    conv_lhs => rw [show l ++ m = l.take limit ++ (l.drop limit ++ m) by
      rw [← List.append_assoc, List.take_append_drop]]
    rw [chunkRem_append_full _ h.1 (by simp; omega), ih, hrem]
  | case2 l h =>
    have hrem : chunkRem limit l = l := by rw [chunkRem, dif_neg h]
    rw [hrem]

/-! ## Lemmas about record bookkeeping -/

theorem recordsOf_length (dir : String) (env : Nat → Nat × Bool) (i : Nat)
    (cs : List (List Nat)) : (recordsOf dir env i cs).length = cs.length := by
  induction cs generalizing i with
  | nil => rfl
  | cons c cs ih => simp [recordsOf, ih]

theorem recordsOf_append (dir : String) (env : Nat → Nat × Bool) (i : Nat)
    (cs₁ cs₂ : List (List Nat)) :
    recordsOf dir env i (cs₁ ++ cs₂) =
      recordsOf dir env i cs₁ ++ recordsOf dir env (i + cs₁.length) cs₂ := by
  induction cs₁ generalizing i with
  | nil => simp [recordsOf]
  | cons c cs ih =>
    simp only [List.cons_append, recordsOf, List.length_cons, List.append_eq]
    rw [ih (i + 1), show i + (cs.length + 1) = i + 1 + cs.length by omega]

theorem recordsOf_map_content (dir : String) (env : Nat → Nat × Bool) (i : Nat)
    (cs : List (List Nat)) :
    (recordsOf dir env i cs).map (fun r => r.content) = cs := by
  induction cs generalizing i with
  | nil => rfl
  | cons c cs ih => simp [recordsOf, mkRecord, ih]

theorem recordsOf_mem (dir : String) (env : Nat → Nat × Bool) (i : Nat)
    (cs : List (List Nat)) :
    ∀ r ∈ recordsOf dir env i cs, ∃ k c, r = mkRecord dir env k c ∧ c ∈ cs := by
  induction cs generalizing i with
  | nil => intro r hr; cases hr
  | cons c cs ih =>
    intro r hr
    rcases hr with _ | ⟨_, hr⟩
    · exact ⟨i, c, rfl, List.mem_cons_self _ _⟩
    · rcases ih (i + 1) r hr with ⟨k, c', he, hm⟩
      exact ⟨k, c', he, List.mem_cons_of_mem _ hm⟩

/-! ## Lemmas about flushing and acquiring -/

theorem flush_none {dir : String} {env : Nat → Nat × Bool} {s : ChunkState}
    (h : s.current = none) : flushCurrentBuffer dir env s = s := by
  unfold flushCurrentBuffer
  rw [h]

theorem flush_empty {dir : String} {env : Nat → Nat × Bool} {s : ChunkState}
    (h : s.current = some []) : flushCurrentBuffer dir env s = s := by
  unfold flushCurrentBuffer
  rw [h]
  rfl

theorem flush_nonempty {dir : String} {env : Nat → Nat × Bool} {s : ChunkState}
    {b : List Nat} (h : s.current = some b) (hb : b ≠ []) :
    flushCurrentBuffer dir env s =
      { free := releaseBuffer s.free b, current := none,
        chunks := s.chunks ++ [mkRecord dir env s.chunks.length b] } := by
  rcases s with ⟨free, cur, chunks⟩
  obtain rfl : cur = some b := h
  unfold flushCurrentBuffer
  dsimp only
  rw [if_neg (by simpa using hb)]
  rfl

theorem acquire_cons (fb : List Nat) (fr : List (List Nat)) :
    acquireBuffer (fb :: fr) = .ok ([], fr) := rfl

/-! ## The characterization of `pushData`

Starting from any state whose current buffer is below the threshold,
`pushData` always succeeds (it never exhausts the loop fuel or the pool),
leaves the free list unchanged (every acquire inside the loop is fed by
the release just before it), and appends exactly the records of the full
`limit`-sized chunks of `current ++ data`; the remainder stays in the
current buffer.  This is the single lemma all boundary claims reduce to. -/

theorem pushLoop_spec (dir : String) (limit : Nat) (env : Nat → Nat × Bool)
    (hl : 0 < limit) :
    ∀ (fuel : Nat) (data : List Nat) (free : List (List Nat)) (b : List Nat)
      (chunks : List ChunkRecord),
      b.length < limit → 2 * data.length + 1 ≤ fuel →
      pushLoop dir limit env fuel ⟨free, some b, chunks⟩ data =
        .ok ⟨free, some (chunkRem limit (b ++ data)),
             chunks ++ recordsOf dir env chunks.length (chunksOf limit (b ++ data))⟩ := by
  intro fuel
  induction fuel with
  | zero => intro data free b chunks _ hfuel; omega
  | succ fuel ih =>
    intro data free b chunks hb hfuel
    match data with
    | [] =>
      simp only [pushLoop, List.append_nil]
      rw [chunkRem_of_lt hb, chunksOf_of_lt hb]
      simp [recordsOf]
    | d :: rest =>
      have hs0 : ¬(limit - b.length = 0) := by omega
      simp only [pushLoop]
      rw [if_neg hs0]
      have htw_le : min (limit - b.length) (d :: rest).length ≤ limit - b.length :=
        Nat.min_le_left _ _
      have htw_pos : 0 < min (limit - b.length) (d :: rest).length := by
        simp only [List.length_cons]
        omega
      have hsplit : b ++ (d :: rest) =
          (b ++ (d :: rest).take (min (limit - b.length) (d :: rest).length)) ++
            (d :: rest).drop (min (limit - b.length) (d :: rest).length) := by
        rw [List.append_assoc, List.take_append_drop]
      have hb'len : (b ++ (d :: rest).take (min (limit - b.length) (d :: rest).length)).length
          = b.length + min (limit - b.length) (d :: rest).length := by
        simp only [List.length_append, List.length_take]
        rw [Nat.min_eq_left (Nat.min_le_right _ _)]
      have hdroplen : ((d :: rest).drop (min (limit - b.length) (d :: rest).length)).length
          = (d :: rest).length - min (limit - b.length) (d :: rest).length := by
        simp [List.length_drop]
      have hfuel' : 2 * ((d :: rest).drop (min (limit - b.length) (d :: rest).length)).length
          + 1 ≤ fuel := by
        rw [hdroplen]
        simp only [List.length_cons] at htw_pos hfuel ⊢
        omega
      split
      case isTrue hfull =>
        -- the copy filled the buffer exactly to the threshold
        have hb'eq : (b ++ (d :: rest).take (min (limit - b.length) (d :: rest).length)).length
            = limit := by omega
        have hb'ne : (b ++ (d :: rest).take (min (limit - b.length) (d :: rest).length)) ≠ [] := by
          intro hcon
          rw [hcon] at hb'eq
          simp at hb'eq
          omega
        rw [flush_nonempty rfl hb'ne]
        simp only [releaseBuffer, bufClear, acquire_cons]
        rw [ih _ free [] _ (by simpa using hl)
          (by simpa using hfuel')]
        rw [List.nil_append]
        conv_rhs => rw [hsplit]
        rw [chunksOf_append_full _ hl hb'eq, chunkRem_append_full _ hl hb'eq]
        simp only [recordsOf, List.length_append, List.length_cons,
          List.append_assoc, List.cons_append, List.nil_append, List.length_nil]
      case isFalse hfull =>
        rw [ih _ free _ _ (by omega)
          (by simpa using hfuel')]
        rw [← hsplit]

theorem pushData_spec (dir : String) (limit : Nat) (env : Nat → Nat × Bool)
    (hl : 0 < limit) (data : List Nat) (free : List (List Nat)) (b : List Nat)
    (chunks : List ChunkRecord) (hb : b.length < limit) :
    pushData dir limit env ⟨free, some b, chunks⟩ data =
      .ok ⟨free, some (chunkRem limit (b ++ data)),
           chunks ++ recordsOf dir env chunks.length (chunksOf limit (b ++ data))⟩ :=
  pushLoop_spec dir limit env hl _ data free b chunks hb (Nat.le_refl _)

theorem foldPush_spec (dir : String) (limit : Nat) (env : Nat → Nat × Bool)
    (hl : 0 < limit) :
    ∀ (pushes : List (List Nat)) (free : List (List Nat)) (b : List Nat)
      (chunks : List ChunkRecord), b.length < limit →
      pushes.foldlM (fun s d => pushData dir limit env s d) (⟨free, some b, chunks⟩ : ChunkState) =
        .ok ⟨free, some (chunkRem limit (b ++ pushes.flatten)),
             chunks ++ recordsOf dir env chunks.length (chunksOf limit (b ++ pushes.flatten))⟩ := by
  intro pushes
  induction pushes with
  | nil =>
    intro free b chunks hb
    simp only [List.foldlM, List.flatten_nil, List.append_nil]
    rw [chunkRem_of_lt hb, chunksOf_of_lt hb]
    simp [recordsOf, pure, Except.pure]
  | cons d ps ih =>
    intro free b chunks hb
    rw [List.foldlM_cons, pushData_spec dir limit env hl d free b chunks hb]
    show ps.foldlM _ _ = _
    rw [ih free _ _ (chunkRem_length_lt hl _)]
    rw [List.flatten_cons, ← List.append_assoc]
    rw [chunkRem_append_rem (b ++ d) ps.flatten,
        chunksOf_append_rem (b ++ d) ps.flatten]
    rw [recordsOf_append]
    simp [recordsOf_length, List.length_append, List.append_assoc]

/-- Description of a whole single stream: construction takes one buffer
from the pool; the pushes place boundaries purely by cumulative byte
count; destruction flushes a non-empty remainder (returning its buffer)
but destroys the buffer when the remainder is empty, in which case the
free list stays one short. -/
theorem runStream_spec (dir : String) (limit : Nat) (env : Nat → Nat × Bool)
    (hl : 0 < limit) (s₀ : ChunkState) (pushes : List (List Nat))
    (fb : List Nat) (fr : List (List Nat)) (hfree : s₀.free = fb :: fr) :
    runStream dir limit env s₀ pushes =
      .ok ⟨(if chunkRem limit pushes.flatten = [] then fr else [] :: fr), none,
           s₀.chunks ++ recordsOf dir env s₀.chunks.length
             (finalChunksOf limit pushes.flatten)⟩ := by
  unfold runStream constructChunker
  rw [hfree, acquire_cons]
  dsimp only
  rw [show ({ s₀ with free := fr, current := some [] } : ChunkState)
      = ⟨fr, some [], s₀.chunks⟩ by rfl]
  rw [foldPush_spec dir limit env hl pushes fr [] s₀.chunks (by simpa using hl)]
  dsimp only
  rw [List.nil_append]
  unfold destroyChunker finalChunksOf
  split
  case isTrue hrem =>
    rw [flush_empty (by simp [hrem])]
    simp [recordsOf]
  case isFalse hrem =>
    rw [flush_nonempty (b := chunkRem limit pushes.flatten) rfl hrem]
    simp only [releaseBuffer, bufClear]
    rw [recordsOf_append]
    simp [recordsOf, recordsOf_length, List.length_append, List.append_assoc]

/-! ## Consequences used by several claims -/

theorem chunk_limit_pos : 0 < CHUNK_LIMIT := by decide

theorem initState_free_cons :
    (initState NUM_BUFFERS).free = [] :: List.replicate 99 [] := rfl

theorem flatten_finalChunksOf (limit : Nat) (l : List Nat) :
    (finalChunksOf limit l).flatten = l := by
  unfold finalChunksOf
  split
  case isTrue h =>
    have := @flatten_chunksOf limit l
    rw [h] at this
    simpa using this
  case isFalse h =>
    have := @flatten_chunksOf limit l
    simpa using this

theorem finalChunksOf_length_le (limit : Nat) (l : List Nat) :
    (finalChunksOf limit l).length ≤ (chunksOf limit l).length + 1 := by
  unfold finalChunksOf
  split <;> simp

theorem finalChunksOf_mem {limit : Nat} (hl : 0 < limit) (l : List Nat) :
    ∀ c ∈ finalChunksOf limit l, 0 < c.length ∧ c.length ≤ limit := by
  intro c hc
  unfold finalChunksOf at hc
  rw [List.mem_append] at hc
  rcases hc with hc | hc
  · rw [chunksOf_mem_length hc]
    omega
  · rcases (by split at hc <;> simp_all :
      chunkRem limit l ≠ [] ∧ c = chunkRem limit l) with ⟨hne, rfl⟩
    have hlt := chunkRem_length_lt hl l
    have : chunkRem limit l ≠ [] → 0 < (chunkRem limit l).length := by
      intro h
      cases hrem : chunkRem limit l with
      | nil => exact absurd hrem h
      | cons a as => simp
    exact ⟨this hne, by omega⟩

theorem recordsOf_mem_fields (dir : String) (env : Nat → Nat × Bool) (i : Nat)
    (cs : List (List Nat)) :
    ∀ r ∈ recordsOf dir env i cs,
      r.content ∈ cs ∧ r.hash = compute_sha512 r.content ∧
      r.fname = dir ++ "/" ++ r.hash ++ "_" ++ toString r.timestamp ++ ".txt" := by
  intro r hr
  rcases recordsOf_mem dir env i cs r hr with ⟨k, c, rfl, hc⟩
  exact ⟨hc, rfl, rfl⟩

theorem string_ext {s t : String} (h : s.data = t.data) : s = t := by
  cases s
  cases t
  exact congrArg String.mk h

/-- Injectivity of the output-name format in its digest and timestamp
components, given equal digest lengths. -/
theorem fname_components_inj (dir h₁ h₂ t₁ t₂ : String)
    (hlen : h₁.length = h₂.length)
    (heq : dir ++ "/" ++ h₁ ++ "_" ++ t₁ ++ ".txt"
         = dir ++ "/" ++ h₂ ++ "_" ++ t₂ ++ ".txt") :
    h₁ = h₂ ∧ t₁ = t₂ := by
  have hdata : (dir ++ "/").data ++ (h₁.data ++ ('_' :: (t₁.data ++ ".txt".data)))
      = (dir ++ "/").data ++ (h₂.data ++ ('_' :: (t₂.data ++ ".txt".data))) := by
    have := congrArg String.data heq
    simp only [String.data_append] at this
    simpa [List.append_assoc] using this
  have h1 := List.append_cancel_left hdata
  have h2 := List.append_inj h1 hlen
  refine ⟨string_ext h2.1, ?_⟩
  have h3 : t₁.data ++ ".txt".data = t₂.data ++ ".txt".data := by
    have := h2.2
    simpa using this
  have h4 := List.append_inj' h3 rfl
  exact string_ext h4.1

/-! ## The claims -/

/-- C1: for every byte sequence and every partition of it into `pushData`
calls (the stream being closed at the end, which flushes the final
buffer), the concatenation of the emitted chunk contents in flush order
reproduces the input exactly, and the chunk contents — hence the
boundaries — depend only on the concatenated bytes, not on the partition
into calls (nor on the flush environment). -/
theorem claim_C1_reassembly_and_boundary_invariance
    (dir : String) (env : Nat → Nat × Bool) (pushes : List (List Nat)) :
    ∃ s, runStream dir CHUNK_LIMIT env (initState NUM_BUFFERS) pushes = .ok s ∧
      (s.chunks.map fun r => r.content).flatten = pushes.flatten ∧
      ∀ (dir' : String) (env' : Nat → Nat × Bool) (pushes' : List (List Nat)),
        pushes'.flatten = pushes.flatten →
        ∃ s', runStream dir' CHUNK_LIMIT env' (initState NUM_BUFFERS) pushes' = .ok s' ∧
          (s'.chunks.map fun r => r.content) = (s.chunks.map fun r => r.content) := by
  refine ⟨_, runStream_spec dir CHUNK_LIMIT env chunk_limit_pos _ pushes _ _
    initState_free_cons, ?_, ?_⟩
  · show ((recordsOf dir env (0 : Nat) _).map fun r => r.content).flatten = _
    rw [recordsOf_map_content, flatten_finalChunksOf]
  · intro dir' env' pushes' hflat
    refine ⟨_, runStream_spec dir' CHUNK_LIMIT env' chunk_limit_pos _ pushes' _ _
      initState_free_cons, ?_⟩
    show ((recordsOf dir' env' (0 : Nat) _).map fun r => r.content)
        = ((recordsOf dir env (0 : Nat) _).map fun r => r.content)
    rw [recordsOf_map_content, recordsOf_map_content, hflat]

/-- C2: in every run, no emitted chunk is empty or exceeds `CHUNK_LIMIT`,
and every emitted chunk except the last has length exactly `CHUNK_LIMIT`
(so the final chunk's length lies in the half-open interval
`(0, CHUNK_LIMIT]`). -/
theorem claim_C2_chunk_sizes
    (dir : String) (env : Nat → Nat × Bool) (pushes : List (List Nat)) :
    ∃ s, runStream dir CHUNK_LIMIT env (initState NUM_BUFFERS) pushes = .ok s ∧
      (∀ r ∈ s.chunks, 0 < r.content.length ∧ r.content.length ≤ CHUNK_LIMIT) ∧
      ∀ (i : Nat) (r : ChunkRecord), i + 1 < s.chunks.length →
        s.chunks[i]? = some r → r.content.length = CHUNK_LIMIT := by
  refine ⟨_, runStream_spec dir CHUNK_LIMIT env chunk_limit_pos _ pushes _ _
    initState_free_cons, ?_, ?_⟩
  · intro r hr
    have hr' : r ∈ recordsOf dir env (0 : Nat)
        (finalChunksOf CHUNK_LIMIT pushes.flatten) := hr
    have hmem := (recordsOf_mem_fields dir env 0 _ r hr').1
    exact finalChunksOf_mem chunk_limit_pos _ _ hmem
  · intro i r h hget
    have hmap := recordsOf_map_content dir env (0 : Nat)
      (finalChunksOf CHUNK_LIMIT pushes.flatten)
    have h' : i + 1 < (finalChunksOf CHUNK_LIMIT pushes.flatten).length := by
      simpa [initState, recordsOf_length] using h
    have hlt : i < (chunksOf CHUNK_LIMIT pushes.flatten).length := by
      have h1 := finalChunksOf_length_le CHUNK_LIMIT pushes.flatten
      omega
    have hget' : (recordsOf dir env (0 : Nat)
        (finalChunksOf CHUNK_LIMIT pushes.flatten))[i]? = some r := by
      simpa [initState] using hget
    have hcontent : (finalChunksOf CHUNK_LIMIT pushes.flatten)[i]? = some r.content := by
      rw [← hmap, List.getElem?_map, hget']
      rfl
    have hchunks : (chunksOf CHUNK_LIMIT pushes.flatten)[i]? = some r.content := by
      rw [← hcontent]
      unfold finalChunksOf
      rw [List.getElem?_append, if_pos hlt]
    exact chunksOf_mem_length (List.getElem?_mem hchunks)

/-- C5: an acquire on an empty free set fails deterministically with the
pool-exhausted error (the thrown `runtime_error`), producing no buffer;
on a non-empty free set it removes exactly one buffer, clears it
(`used = 0`) and returns it. -/
theorem claim_C5_acquire_semantics (free : List (List Nat)) :
    (free = [] → acquireBuffer free = .error "No free chunk buffers available!") ∧
    (∀ (fb : List Nat) (fr : List (List Nat)), free = fb :: fr →
      acquireBuffer free = .ok (bufClear fb, fr) ∧ (bufClear fb).length = 0 ∧
      fr.length + 1 = free.length) := by
  constructor
  · rintro rfl
    rfl
  · rintro fb fr rfl
    exact ⟨rfl, rfl, by simp⟩

theorem claim_C5_acquire_semantics_witness :
    acquireBuffer [] = .error "No free chunk buffers available!" ∧
    acquireBuffer [[3]] = .ok ([], []) :=
  ⟨(claim_C5_acquire_semantics []).1 rfl,
   ((claim_C5_acquire_semantics [[3]]).2 [3] [] rfl).1⟩

/-- C6: when persisting a finalized chunk fails, the failure is not
propagated: `flushCurrentBuffer` still releases the buffer to the pool
exactly as on success and produces the same record (content, hash,
timestamp, file name) except that the bytes are not written — comparing
a run environment in which the file opens with one in which it does not,
at equal timestamps, the resulting states agree except in that flag. -/
theorem claim_C6_persist_failure_released
    (dir : String) (env₁ env₂ : Nat → Nat × Bool) (s : ChunkState) (b : List Nat)
    (hcur : s.current = some b) (hb : b ≠ [])
    (htime : ∀ i, (env₁ i).1 = (env₂ i).1) :
    ∃ r₁ r₂,
      flushCurrentBuffer dir env₁ s =
        { free := releaseBuffer s.free b, current := none, chunks := s.chunks ++ [r₁] } ∧
      flushCurrentBuffer dir env₂ s =
        { free := releaseBuffer s.free b, current := none, chunks := s.chunks ++ [r₂] } ∧
      r₁.content = b ∧ r₂.content = b ∧ r₁.hash = r₂.hash ∧
      r₁.timestamp = r₂.timestamp ∧ r₁.fname = r₂.fname ∧
      r₁.written = (env₁ s.chunks.length).2 ∧ r₂.written = (env₂ s.chunks.length).2 := by
  refine ⟨mkRecord dir env₁ s.chunks.length b, mkRecord dir env₂ s.chunks.length b,
    flush_nonempty hcur hb, flush_nonempty hcur hb, rfl, rfl, rfl, ?_, ?_, rfl, rfl⟩
  · show (env₁ s.chunks.length).1 = (env₂ s.chunks.length).1
    exact htime _
  · show dir ++ "/" ++ compute_sha512 b ++ "_" ++ toString (env₁ s.chunks.length).1 ++ ".txt"
      = dir ++ "/" ++ compute_sha512 b ++ "_" ++ toString (env₂ s.chunks.length).1 ++ ".txt"
    rw [htime _]

theorem claim_C6_persist_failure_released_witness :
    ∃ r₁ r₂,
      flushCurrentBuffer "/o" (fun _ => (5, true)) ⟨[], some [9], []⟩ =
        { free := releaseBuffer [] [9], current := none, chunks := [] ++ [r₁] } ∧
      flushCurrentBuffer "/o" (fun _ => (5, false)) ⟨[], some [9], []⟩ =
        { free := releaseBuffer [] [9], current := none, chunks := [] ++ [r₂] } ∧
      r₁.content = [9] ∧ r₂.content = [9] ∧ r₁.hash = r₂.hash ∧
      r₁.timestamp = r₂.timestamp ∧ r₁.fname = r₂.fname ∧
      r₁.written = ((fun (_ : Nat) => (5, true)) (0 : Nat)).2 ∧
      r₂.written = ((fun (_ : Nat) => (5, false)) (0 : Nat)).2 :=
  claim_C6_persist_failure_released "/o" (fun _ => (5, true)) (fun _ => (5, false))
    ⟨[], some [9], []⟩ [9] rfl (by simp) (fun _ => rfl)

/-- C7: every chunk record of a run carries as its hash exactly the
SHA-512 digest of its content rendered as a fixed-length (128-character)
lowercase hex string, and its file name has the form
`<dir>/<hash>_<timestamp>.txt`; recomputing the digest over the persisted
bytes therefore reproduces the identifier's digest component. -/
theorem claim_C7_content_addressing
    (dir : String) (env : Nat → Nat × Bool) (pushes : List (List Nat)) :
    ∃ s, runStream dir CHUNK_LIMIT env (initState NUM_BUFFERS) pushes = .ok s ∧
      ∀ r ∈ s.chunks,
        r.hash = compute_sha512 r.content ∧
        r.fname = dir ++ "/" ++ r.hash ++ "_" ++ toString r.timestamp ++ ".txt" ∧
        r.hash.length = 128 ∧ ∀ c ∈ r.hash.data, c ∈ hexChars := by
  refine ⟨_, runStream_spec dir CHUNK_LIMIT env chunk_limit_pos _ pushes _ _
    initState_free_cons, ?_⟩
  intro r hr
  have hr' : r ∈ recordsOf dir env (0 : Nat)
      (finalChunksOf CHUNK_LIMIT pushes.flatten) := hr
  obtain ⟨-, hhash, hfname⟩ := recordsOf_mem_fields dir env 0 _ r hr'
  refine ⟨hhash, hfname, ?_, ?_⟩
  · rw [hhash]
    exact compute_sha512_length _
  · rw [hhash]
    exact compute_sha512_chars _

/-- C8: destroying the splitter finalizes the current buffer as a final
chunk exactly when it is non-empty (the buffer going back to the pool),
does not emit anything when it is empty, and no run ever emits an empty
chunk. -/
theorem claim_C8_final_flush_no_empty_chunks :
    (∀ (dir : String) (env : Nat → Nat × Bool) (s : ChunkState) (b : List Nat),
      s.current = some b → b ≠ [] →
      ∃ r, destroyChunker dir env s =
          { free := releaseBuffer s.free b, current := none, chunks := s.chunks ++ [r] } ∧
        r.content = b) ∧
    (∀ (dir : String) (env : Nat → Nat × Bool) (s : ChunkState),
      s.current = some [] → destroyChunker dir env s = { s with current := none }) ∧
    (∀ (dir : String) (env : Nat → Nat × Bool) (pushes : List (List Nat)),
      ∃ s, runStream dir CHUNK_LIMIT env (initState NUM_BUFFERS) pushes = .ok s ∧
        ∀ r ∈ s.chunks, r.content ≠ []) := by
  refine ⟨?_, ?_, ?_⟩
  · intro dir env s b hcur hb
    refine ⟨mkRecord dir env s.chunks.length b, ?_, rfl⟩
    unfold destroyChunker
    rw [flush_nonempty hcur hb]
  · intro dir env s hcur
    unfold destroyChunker
    rw [flush_empty hcur]
  · intro dir env pushes
    refine ⟨_, runStream_spec dir CHUNK_LIMIT env chunk_limit_pos _ pushes _ _
      initState_free_cons, ?_⟩
    intro r hr
    have hr' : r ∈ recordsOf dir env (0 : Nat)
        (finalChunksOf CHUNK_LIMIT pushes.flatten) := hr
    have hmem := (recordsOf_mem_fields dir env 0 _ r hr').1
    have := (finalChunksOf_mem chunk_limit_pos _ _ hmem).1
    intro hcon
    rw [hcon] at this
    simp at this

theorem claim_C8_final_flush_no_empty_chunks_witness :
    (∃ r, destroyChunker "/o" (fun _ => (5, true)) ⟨[], some [7], []⟩ =
        { free := releaseBuffer [] [7], current := none, chunks := [] ++ [r] } ∧
      r.content = [7]) ∧
    destroyChunker "/o" (fun _ => (5, true)) ⟨[], some [], []⟩ =
      { (⟨[], some [], []⟩ : ChunkState) with current := none } :=
  ⟨claim_C8_final_flush_no_empty_chunks.1 "/o" _ ⟨[], some [7], []⟩ [7] rfl (by simp),
   claim_C8_final_flush_no_empty_chunks.2.1 "/o" _ ⟨[], some [], []⟩ rfl⟩

/-- C10: when the splitter is destroyed while its current buffer is empty
(`used = 0`) — in particular immediately after a chunk boundary, or when
it never received a byte — `flushCurrentBuffer` returns without releasing
the buffer, the destructor deallocates it, and the pool's free set is
left unchanged: that splitter's lifetime removes one buffer from the
pool's population permanently. -/
theorem claim_C10_empty_destroy_leaks_buffer
    (dir : String) (env : Nat → Nat × Bool) (s : ChunkState)
    (hcur : s.current = some []) :
    destroyChunker dir env s = { s with current := none } ∧
    (destroyChunker dir env s).free = s.free ∧
    totalBuffers (destroyChunker dir env s) + 1 = totalBuffers s := by
  have hd : destroyChunker dir env s = { s with current := none } := by
    unfold destroyChunker
    rw [flush_empty hcur]
  refine ⟨hd, by rw [hd], ?_⟩
  rw [hd]
  unfold totalBuffers
  rw [hcur]
  simp

theorem claim_C10_empty_destroy_leaks_buffer_witness :
    destroyChunker "/o" (fun _ => (5, true)) ⟨[], some [], []⟩ =
      { (⟨[], some [], []⟩ : ChunkState) with current := none } ∧
    (destroyChunker "/o" (fun _ => (5, true)) ⟨[], some [], []⟩).free = [] ∧
    totalBuffers (destroyChunker "/o" (fun _ => (5, true)) ⟨[], some [], []⟩) + 1 =
      totalBuffers ⟨[], some [], []⟩ :=
  claim_C10_empty_destroy_leaks_buffer "/o" _ ⟨[], some [], []⟩ rfl

theorem claim_C1_reassembly_and_boundary_invariance_witness :
    ∃ s, runStream "/o" CHUNK_LIMIT (fun _ => (0, true)) (initState NUM_BUFFERS)
        [[1, 2], [3]] = .ok s ∧
      (s.chunks.map fun r => r.content).flatten = [[1, 2], [3]].flatten ∧
      ∀ (dir' : String) (env' : Nat → Nat × Bool) (pushes' : List (List Nat)),
        pushes'.flatten = [[1, 2], [3]].flatten →
        ∃ s', runStream dir' CHUNK_LIMIT env' (initState NUM_BUFFERS) pushes' = .ok s' ∧
          (s'.chunks.map fun r => r.content) = (s.chunks.map fun r => r.content) :=
  claim_C1_reassembly_and_boundary_invariance "/o" (fun _ => (0, true)) [[1, 2], [3]]

theorem claim_C2_chunk_sizes_witness :
    ∃ s, runStream "/o" CHUNK_LIMIT (fun _ => (0, true)) (initState NUM_BUFFERS)
        [[5]] = .ok s ∧
      (∀ r ∈ s.chunks, 0 < r.content.length ∧ r.content.length ≤ CHUNK_LIMIT) ∧
      ∀ (i : Nat) (r : ChunkRecord), i + 1 < s.chunks.length →
        s.chunks[i]? = some r → r.content.length = CHUNK_LIMIT :=
  claim_C2_chunk_sizes "/o" (fun _ => (0, true)) [[5]]

theorem claim_C7_content_addressing_witness :
    ∃ s, runStream "/o" CHUNK_LIMIT (fun _ => (0, true)) (initState NUM_BUFFERS)
        [[7]] = .ok s ∧
      ∀ r ∈ s.chunks,
        r.hash = compute_sha512 r.content ∧
        r.fname = "/o" ++ "/" ++ r.hash ++ "_" ++ toString r.timestamp ++ ".txt" ∧
        r.hash.length = 128 ∧ ∀ c ∈ r.hash.data, c ∈ hexChars :=
  claim_C7_content_addressing "/o" (fun _ => (0, true)) [[7]]

/-- C3, behavior of the code at the failing input: with a pool of one
buffer, constructing a splitter and destroying it without pushing a byte
(an empty stream, e.g. a failed extraction) destroys the buffer instead
of returning it: the population of live buffers drops from `N = 1` to
`0`, violating the claimed invariant that free plus checked-out buffers
always number exactly `N`. -/
theorem claim_C3_pool_population_drops :
    runStream "/tmp/chunked_0" CHUNK_LIMIT (fun _ => (0, true)) (initState 1) [] =
      .ok ⟨[], none, []⟩ ∧
    totalBuffers (initState 1) = 1 ∧
    totalBuffers ⟨[], none, []⟩ = 0 :=
  ⟨rfl, rfl, rfl⟩

/-- C4, behavior of the code at the failing input: pool size 1, threshold
10, two sequential streams of exactly 10 bytes each.  The first stream
flushes its full chunk and then acquires a replacement buffer, which its
destructor destroys (the buffer is empty), so the second stream's
construction throws the pool-exhaustion error — the scenario claimed to
succeed does not. -/
theorem claim_C4_second_stream_exhausts_pool :
    ∃ s₁, runStream "/tmp/chunked_0" 10 (fun _ => (0, true)) (initState 1)
        [[97, 98, 99, 100, 101, 102, 103, 104, 105, 106]] = .ok s₁ ∧
      s₁.chunks.map (fun r => r.content) =
        [[97, 98, 99, 100, 101, 102, 103, 104, 105, 106]] ∧
      s₁.free = [] ∧
      constructChunker s₁ = .error "No free chunk buffers available!" ∧
      runStream "/tmp/chunked_0" 10 (fun _ => (0, true)) s₁
        [[97, 98, 99, 100, 101, 102, 103, 104, 105, 106]] =
        .error "No free chunk buffers available!" :=
  ⟨_, rfl, by decide, rfl, rfl, rfl⟩

set_option maxRecDepth 10000 in
/-- C9, counterexample: two streams with identical content flushed at the
same coarse timestamp produce two successful writes to the *same* output
file name, so the later write does replace an already-persisted chunk
file, against the claim's "no later write in the same run replaces an
already-persisted chunk file". -/
theorem claim_C9_counterexample :
    ∃ s₁ s₂, runStream "/tmp/chunked_0" CHUNK_LIMIT (fun _ => (0, true))
        (initState NUM_BUFFERS) [[7]] = .ok s₁ ∧
      runStream "/tmp/chunked_0" CHUNK_LIMIT (fun _ => (0, true)) s₁ [[7]] = .ok s₂ ∧
      s₂.chunks.map (fun r => r.fname) =
        ["/tmp/chunked_0/365d11a1dfe610b60efa996136d37ab8afd2715b8c6bc2850dc5e6005b702bb9f59b0f306ecb2c43ee44c429967d45843524eb2f7c16aab9bde142ee268b51c6_0.txt",
         "/tmp/chunked_0/365d11a1dfe610b60efa996136d37ab8afd2715b8c6bc2850dc5e6005b702bb9f59b0f306ecb2c43ee44c429967d45843524eb2f7c16aab9bde142ee268b51c6_0.txt"] ∧
      s₂.chunks.map (fun r => r.written) = [true, true] :=
  ⟨_, _, rfl, rfl, by decide, by decide⟩

/-- C9, amended: every finalized chunk is appended to the run's output
exactly once and earlier records are never modified; the identifier is
derived solely from the content digest plus the flush timestamp (no
input file name enters it); and a later write lands on the path of an
earlier one only if the two chunks have the same digest and the same
rendered timestamp — in which case (and only then, as the counterexample
shows is possible) the later write replaces the earlier file. -/
theorem claim_C9_amended_persisted_once
    (dir : String) (env : Nat → Nat × Bool) (s₀ : ChunkState)
    (pushes : List (List Nat)) (fb : List Nat) (fr : List (List Nat))
    (hfree : s₀.free = fb :: fr) :
    ∃ s new, runStream dir CHUNK_LIMIT env s₀ pushes = .ok s ∧
      s.chunks = s₀.chunks ++ new ∧
      (∀ r ∈ new, r.hash = compute_sha512 r.content ∧
        r.fname = dir ++ "/" ++ r.hash ++ "_" ++ toString r.timestamp ++ ".txt") ∧
      (∀ r₁ ∈ new, ∀ r₂ ∈ new, r₁.fname = r₂.fname →
        r₁.hash = r₂.hash ∧ toString r₁.timestamp = toString r₂.timestamp) := by
  refine ⟨_, _, runStream_spec dir CHUNK_LIMIT env chunk_limit_pos s₀ pushes fb fr hfree,
    rfl, ?_, ?_⟩
  · intro r hr
    obtain ⟨-, hhash, hfname⟩ := recordsOf_mem_fields dir env s₀.chunks.length _ r hr
    exact ⟨hhash, hfname⟩
  · intro r₁ h₁ r₂ h₂ heq
    obtain ⟨-, hhash₁, hfname₁⟩ := recordsOf_mem_fields dir env s₀.chunks.length _ r₁ h₁
    obtain ⟨-, hhash₂, hfname₂⟩ := recordsOf_mem_fields dir env s₀.chunks.length _ r₂ h₂
    rw [hfname₁, hfname₂] at heq
    have hlen : r₁.hash.length = r₂.hash.length := by
      rw [hhash₁, hhash₂, compute_sha512_length, compute_sha512_length]
    exact fname_components_inj dir _ _ _ _ hlen heq

theorem claim_C9_amended_persisted_once_witness :
    ∃ s new, runStream "/o" CHUNK_LIMIT (fun _ => (0, true)) (initState NUM_BUFFERS)
        [[7]] = .ok s ∧
      s.chunks = (initState NUM_BUFFERS).chunks ++ new ∧
      (∀ r ∈ new, r.hash = compute_sha512 r.content ∧
        r.fname = "/o" ++ "/" ++ r.hash ++ "_" ++ toString r.timestamp ++ ".txt") ∧
      (∀ r₁ ∈ new, ∀ r₂ ∈ new, r₁.fname = r₂.fname →
        r₁.hash = r₂.hash ∧ toString r₁.timestamp = toString r₂.timestamp) :=
  claim_C9_amended_persisted_once "/o" (fun _ => (0, true)) (initState NUM_BUFFERS)
    [[7]] [] (List.replicate 99 []) initState_free_cons

end Chunk
